import Mathlib

/-!
Shallow embedding of the Bitcask storage engine (`src/storage/bitcask.rs`,
`src/storage/mod.rs`, `src/error.rs`).

Bytes are modeled as `Nat` (all bytes the engine itself writes are < 256);
keys, values and the log file are `List Nat`.  The in-memory `KeyDir`
(`BTreeMap<Vec<u8>, (u64, u32)>`) is modeled as an association list kept
sorted by lexicographic byte order, which is observationally the behavior
of the B-tree map (ordered iteration, unique keys).  `u32` casts are
modeled with `% 2^32`; fallible file reads return `Option`.
-/

namespace Lndb

/-- The engine error type from `src/error.rs`; the engine only ever raises
`Internal` (the message is irrelevant to the properties proved here). -/
inductive EngErr where
  | internal : EngErr
deriving DecidableEq, Repr

/-- Lexicographic strict order on byte strings: the ordering of `Vec<u8>`
used by the `BTreeMap` backing the KeyDir. -/
def keyLt : List Nat → List Nat → Bool
  | _, [] => false
  | [], _ :: _ => true
  | a :: as, b :: bs => a < b || (a == b && keyLt as bs)

/-- `KeyDir = BTreeMap<Vec<u8>, (u64, u32)>`: key ↦ (value_pos, value_len),
as a sorted association list. -/
abbrev KeyDir := List (List Nat × Nat × Nat)

/-- Insert-or-replace into the sorted association list: the model of
`BTreeMap::insert`. -/
def kdInsert : KeyDir → List Nat → Nat × Nat → KeyDir
  | [], k, v => [(k, v)]
  | (k', v') :: rest, k, v =>
    if keyLt k k' then (k, v) :: (k', v') :: rest
    else if k = k' then (k, v) :: rest
    else (k', v') :: kdInsert rest k v

/-- Remove a key from the association list: the model of `BTreeMap::remove`. -/
def kdRemove : KeyDir → List Nat → KeyDir
  | [], _ => []
  | (k', v') :: rest, k => if k = k' then rest else (k', v') :: kdRemove rest k

/-- Key lookup: the model of `BTreeMap::get`. -/
def kdGet : KeyDir → List Nat → Option (Nat × Nat)
  | [], _ => none
  | (k', v') :: rest, k => if k = k' then some v' else kdGet rest k

/-- Big-endian 4-byte encoding of a 32-bit quantity (`u32::to_be_bytes`,
and the bit pattern of `i32::to_be_bytes` for nonnegative values). -/
def be32 (n : Nat) : List Nat :=
  [n / 2 ^ 24 % 256, n / 2 ^ 16 % 256, n / 2 ^ 8 % 256, n % 256]

/-- Big-endian decoding of a 4-byte list (`u32::from_be_bytes`). -/
def fromBe32 : List Nat → Nat
  | [a, b, c, d] => ((a * 256 + b) * 256 + c) * 256 + d
  | _ => 0

/-- Decoding of the `value_len_or_tombstone` header field: reinterpret the
4 bytes as a big-endian `i32`; a negative value (top bit set) means
tombstone (`None`), else `Some value_len` (bitcask.rs lines 224-227). -/
def decodeLenOrTomb (l : List Nat) : Option Nat :=
  if fromBe32 l < 2 ^ 31 then some (fromBe32 l) else none

/-- The bytes of one on-disk record frame, as written by `Log::write_entry`:
big-endian `key_len` (`key.len() as u32`), then `value_len_or_tombstone`
(`-1_i32` = `[255,255,255,255]` for a tombstone, else `value.len() as i32`),
then the key bytes, then the value bytes if present. -/
def frameBytes (key : List Nat) (values : Option (List Nat)) : List Nat :=
  be32 (key.length % 2 ^ 32) ++
    (match values with
      | some v => be32 (v.length % 2 ^ 32)
      | none => [255, 255, 255, 255]) ++
    key ++ (match values with | some v => v | none => [])

/-- `Log::write_entry` (bitcask.rs lines 174-197): seek to the end, append
the frame, and return `(pos + len - value_len, value_len)` where
`len : u32 = 4 + 4 + key_len + value_len`.  Returns the new file contents
together with the returned pair. -/
def Log.write_entry (log : List Nat) (key : List Nat) (values : Option (List Nat)) :
    List Nat × Nat × Nat :=
  let key_len := key.length % 2 ^ 32
  let value_len := match values with | some v => v.length % 2 ^ 32 | none => 0
  let len := (4 + 4 + key_len + value_len) % 2 ^ 32
  let pos := log.length
  (log ++ frameBytes key values, pos + len - value_len, value_len)

/-- `Log::read_entry` (bitcask.rs lines 199-204): seek to `value_pos` and
`read_exact` a buffer of `value_len` bytes; `none` models the I/O error
when fewer than `value_len` bytes are available (for `value_len = 0`
`read_exact` trivially succeeds at any position). -/
def Log.read_entry (log : List Nat) (value_pos value_len : Nat) : Option (List Nat) :=
  if value_len = 0 then some []
  else if value_pos + value_len ≤ log.length then
    some ((log.drop value_pos).take value_len)
  else none

/-- `read_exact` into an `n`-byte buffer at position `pos` of the file:
fails (`none`) when fewer than `n` bytes remain. -/
def readExactAt (file : List Nat) (pos n : Nat) : Option (List Nat) :=
  if pos + n ≤ file.length then some ((file.drop pos).take n) else none

/-- The contents of an `n`-byte zeroed buffer after a `read_exact` whose
result is IGNORED (bitcask.rs line 231, `reader.read_exact(&mut key);`
without `?`): the available bytes fill the front, the rest stays zero. -/
def readFillAt (file : List Nat) (pos n : Nat) : List Nat :=
  ((file.drop pos).take n) ++ List.replicate (n - ((file.drop pos).take n).length) 0

/-- One pass of the `while pos < file_len` loop of `Log::build_keydir`
(bitcask.rs lines 206-271), with explicit fuel (the loop advances `pos`
by at least 8 per iteration, so `file.length + 1` fuel always suffices).
Returns the final KeyDir, the file contents (possibly truncated by the
`set_len(pos)` recovery action), and the position at which the loop
stopped.  Faithful to the source: the header reads propagate errors with
`?`, the key read's result is dropped, a put whose value would extend past
the end of the file truncates, a tombstone never checks nor truncates. -/
def scanLog : Nat → List Nat → Nat → KeyDir → KeyDir × List Nat × Nat
  | 0, file, pos, kd => (kd, file, pos)
  | fuel + 1, file, pos, kd =>
    if pos < file.length then
      match readExactAt file pos 4 with
      | none => (kd, file.take pos, pos)
      | some klb =>
        match readExactAt file (pos + 4) 4 with
        | none => (kd, file.take pos, pos)
        | some vlb =>
          let key_len := fromBe32 klb
          let value_pos := pos + 4 + 4 + key_len
          let key := readFillAt file (pos + 8) key_len
          match decodeLenOrTomb vlb with
          | some value_len =>
            if value_len + value_pos > file.length then (kd, file.take pos, pos)
            else scanLog fuel file (value_pos + value_len) (kdInsert kd key (value_pos, value_len))
          | none => scanLog fuel file value_pos (kdRemove kd key)
    else (kd, file, pos)

/-- `Log::build_keydir`: run the scan loop from offset 0 with an empty
KeyDir; returns the KeyDir and the (possibly truncated) file. -/
def Log.build_keydir (file : List Nat) : KeyDir × List Nat :=
  let r := scanLog (file.length + 1) file 0 []
  (r.1, r.2.1)

/-- The engine state: the log file contents plus the KeyDir
(`struct BitCask { log: Log, keydir: KeyDir }`). -/
structure BitCask where
  log : List Nat
  keydir : KeyDir
deriving DecidableEq, Repr

/-- `BitCask::new` (bitcask.rs lines 26-30): open the log and rebuild the
KeyDir from it. -/
def BitCask.new (file : List Nat) : BitCask :=
  let r := Log.build_keydir file
  { log := r.2, keydir := r.1 }

/-- `Log::write_entry` with an I/O failure oracle: `fail = some n` means the
flush of the buffered frame fails after `n` bytes reached the file, and the
`?` in the caller propagates `Internal`; `fail = none` is the successful
path. -/
def Log.write_entry_f (log : List Nat) (key : List Nat) (values : Option (List Nat))
    (fail : Option Nat) : Except EngErr (Nat × Nat) × List Nat :=
  match fail with
  | some n => (.error .internal, log ++ (frameBytes key values).take n)
  | none =>
    let r := Log.write_entry log key values
    (.ok (r.2.1, r.2.2), r.1)

/-- `BitCask::set` (bitcask.rs lines 55-60) with the failure oracle: append
a put through the log; only when the append returned `Ok` is the KeyDir
updated with the returned `(value_pos, value_len)` — the `?` returns
before `keydir.insert` runs. -/
def BitCask.set_f (s : BitCask) (key value : List Nat) (fail : Option Nat) :
    Except EngErr Unit × BitCask :=
  match Log.write_entry_f s.log key (some value) fail with
  | (.error e, log2) => (.error e, { s with log := log2 })
  | (.ok (p, l), log2) => (.ok (), { log := log2, keydir := kdInsert s.keydir key (p, l) })

/-- `BitCask::set` on the successful path. -/
def BitCask.set (s : BitCask) (key value : List Nat) : BitCask :=
  (s.set_f key value none).2

/-- `BitCask::get` (bitcask.rs lines 62-68): look up the KeyDir; on a hit,
positioned-read the value (surfacing a read failure); on a miss return
`none`. -/
def BitCask.get (s : BitCask) (key : List Nat) : Except EngErr (Option (List Nat)) :=
  match kdGet s.keydir key with
  | some (p, l) =>
    match Log.read_entry s.log p l with
    | some v => .ok (some v)
    | none => .error .internal
  | none => .ok none

/-- `BitCask::delete` (bitcask.rs lines 70-74): append a tombstone, then
remove the key from the KeyDir. -/
def BitCask.delete (s : BitCask) (key : List Nat) : BitCask :=
  { log := (Log.write_entry s.log key none).1, keydir := kdRemove s.keydir key }

/-- The `Status` record from `src/storage/mod.rs`. -/
structure Status where
  name : String
  keys : Nat
  size : Nat
  total_disk_size : Nat
  live_disk_size : Nat
  garbage_disk_size : Nat
deriving DecidableEq, Repr

/-- `BitCask::status` (bitcask.rs lines 89-108): fold the KeyDir for `size`,
file length for `total_disk_size`, `live = size + 8·keys`, and the
(unsigned) difference `total - live` for garbage. -/
def BitCask.status (s : BitCask) : Status :=
  let keys := s.keydir.length
  let total_disk_size := s.log.length
  let size := s.keydir.foldl (fun acc e => acc + e.1.length + e.2.2) 0
  let live_disk_size := size + 8 * keys
  let garbage_disk_size := total_disk_size - live_disk_size
  { name := "Bitcask", keys := keys, size := size, total_disk_size := total_disk_size,
    live_disk_size := live_disk_size, garbage_disk_size := garbage_disk_size }

/-- The loop body of `BitCask::write_log` (bitcask.rs lines 127-138).
Faithful to the source, including its defect: the value is read through
`log` — the NEW log being built — rather than through `self.log`
(`let value = log.read_entry(*value_pos, *value_len)?;`). -/
def BitCask.write_log_go (log : List Nat) (kd : KeyDir) :
    KeyDir → Except EngErr (List Nat × KeyDir)
  | [] => .ok (log, kd)
  | (key, p, l) :: rest =>
    match Log.read_entry log p l with
    | none => .error .internal
    | some value =>
      let r := Log.write_entry log key (some value)
      BitCask.write_log_go r.1 (kdInsert kd key (r.2.1, r.2.2)) rest

/-- `BitCask::write_log`: iterate the current KeyDir in ascending key order
into a fresh log. -/
def BitCask.write_log (s : BitCask) : Except EngErr (List Nat × KeyDir) :=
  BitCask.write_log_go [] [] s.keydir

/-- `BitCask::compact` (bitcask.rs lines 113-125): rewrite through
`write_log`, rename, and swap in the new log and KeyDir; on error the
engine state is unchanged (the caller keeps the old state). -/
def BitCask.compact (s : BitCask) : Except EngErr BitCask :=
  match s.write_log with
  | .error e => .error e
  | .ok (log2, kd2) => .ok { log := log2, keydir := kd2 }

/-- `BitCask::new_with_compact` (bitcask.rs lines 32-49): open, compute the
status, and when `garbage_disk_size / total_disk_size > garbage_ratio`
call `compact` — whose `Result` the source DROPS (`bitcask.compact();`
with no `?`), so a compaction error leaves the freshly opened engine to be
returned as `Ok`.  The `f64` ratio test is modeled over `ℚ`. -/
def BitCask.new_with_compact (file : List Nat) (garbage_ratio : ℚ) : BitCask :=
  let b := BitCask.new file
  let st := b.status
  if (st.garbage_disk_size : ℚ) / (st.total_disk_size : ℚ) > garbage_ratio then
    match b.compact with
    | .ok b2 => b2
    | .error _ => b
  else b

/-- One end of a scan range bound (`std::ops::Bound<Vec<u8>>`). -/
inductive RBound where
  | unbounded : RBound
  | included : List Nat → RBound
  | excluded : List Nat → RBound
deriving DecidableEq, Repr

/-- Whether `k` is above the lower bound. -/
def aboveLo : RBound → List Nat → Bool
  | .unbounded, _ => true
  | .included a, k => !(keyLt k a)
  | .excluded a, k => keyLt a k

/-- Whether `k` is below the upper bound. -/
def belowHi : RBound → List Nat → Bool
  | .unbounded, _ => true
  | .included b, k => !(keyLt b k)
  | .excluded b, k => keyLt k b

/-- Range membership for scan bounds. -/
def inRange (lo hi : RBound) (k : List Nat) : Bool :=
  aboveLo lo k && belowHi hi k

/-- The KeyDir entries visited by `BitCask::scan` (bitcask.rs lines 76-80):
`self.keydir.range(range)`, i.e. the sorted entries within the bounds. -/
def BitCask.scanEntries (s : BitCask) (lo hi : RBound) : KeyDir :=
  s.keydir.filter (fun e => inRange lo hi e.1)

/-- Collecting the `ScanIterator` items (bitcask.rs lines 281-294): each
entry's value is read on demand through the log; the first failed read
surfaces as the collected `Result`'s error. -/
def collectValues (log : List Nat) : KeyDir → Except EngErr (List (List Nat × List Nat))
  | [] => .ok []
  | (key, p, l) :: rest =>
    match Log.read_entry log p l with
    | none => .error .internal
    | some v =>
      match collectValues log rest with
      | .ok out => .ok ((key, v) :: out)
      | .error e => .error e

/-- Forward collection of `scan(range)`. -/
def BitCask.scanValues (s : BitCask) (lo hi : RBound) :
    Except EngErr (List (List Nat × List Nat)) :=
  collectValues s.log (s.scanEntries lo hi)

/-- Reverse collection of `scan(range)` via `DoubleEndedIterator::next_back`
(bitcask.rs lines 296-300): the B-tree range is consumed from the back. -/
def BitCask.scanValuesRev (s : BitCask) (lo hi : RBound) :
    Except EngErr (List (List Nat × List Nat)) :=
  collectValues s.log (s.scanEntries lo hi).reverse

/-- An operation of the public write interface. -/
inductive Op where
  | set : List Nat → List Nat → Op
  | del : List Nat → Op
deriving DecidableEq, Repr

/-- The key an operation touches. -/
def Op.key : Op → List Nat
  | .set k _ => k
  | .del k => k

/-- Size bounds under which the `u32` casts in the record header are exact
and a put's length field decodes back as a nonnegative `i32` (the spec's
data model bounds key and value lengths by `2^31 - 1`). -/
def Op.boundedB : Op → Bool
  | .set k v => decide (8 + k.length + v.length < 2 ^ 32) && decide (v.length < 2 ^ 31)
  | .del k => decide (k.length < 2 ^ 32)

/-- Apply one operation to the engine (successful I/O path). -/
def BitCask.applyOp (s : BitCask) : Op → BitCask
  | .set k v => s.set k v
  | .del k => s.delete k

/-- Apply a history of operations in order. -/
def BitCask.applyOps (s : BitCask) (ops : List Op) : BitCask :=
  ops.foldl BitCask.applyOp s

/-- The latest surviving write for key `k` in a history: `some v` when the
last operation touching `k` is `set k v`, `none` when it is `del k` or no
operation touches `k`. -/
def lastWrite (ops : List Op) (k : List Nat) : Option (List Nat) :=
  ops.foldl
    (fun acc o =>
      match o with
      | .set k' v => if k' = k then some v else acc
      | .del k' => if k' = k then none else acc)
    none

deriving instance DecidableEq for Except

/-- Sortedness of the association list: the invariant of the `BTreeMap`
iteration order. -/
def KdSorted (kd : KeyDir) : Prop :=
  List.Pairwise (fun e1 e2 => keyLt e1.1 e2.1 = true) kd

/-- The total live bytes accounted by a KeyDir: one 8-byte header plus key
and value lengths per entry. -/
def liveSize (kd : KeyDir) : Nat :=
  (kd.map (fun e => 8 + e.1.length + e.2.2)).sum

/-- The engine after the history `set [98] [81]; set [97,97,97,97] []`:
key `[98]` holds value `[81]`, and the empty-valued key `[97,97,97,97]`
sorts first, so compaction processes it first. -/
def compactSample : BitCask :=
  BitCask.applyOps (BitCask.new []) [.set [98] [81], .set [97, 97, 97, 97] []]

/-- A log holding one complete put record (key `[0,0]` ↦ value `[5]`,
bytes 0..11) followed by a partial tombstone record: a complete 8-byte
header (`key_len = 2`, `value_len_or_tombstone = -1`) whose 2 key bytes
are missing. -/
def truncSampleFile : List Nat :=
  [0, 0, 0, 2, 0, 0, 0, 1, 0, 0, 5] ++ [0, 0, 0, 2] ++ [255, 255, 255, 255]

/-- The log file produced by `set [97] [1]; set [97] [2]`: 20 bytes, of
which 10 are garbage (the superseded first put). -/
def garbageSampleFile : List Nat :=
  (BitCask.applyOps (BitCask.new []) [.set [97] [1], .set [97] [2]]).log

/-- Every entry of the KeyDir can be read back from the log: an invariant
of all reachable engine states, used as the hypothesis of observational
equalities. -/
def EntriesReadable (s : BitCask) : Prop :=
  ∀ e ∈ s.keydir, (Log.read_entry s.log e.2.1 e.2.2).isSome = true

instance (kd : KeyDir) : Decidable (KdSorted kd) :=
  inferInstanceAs (Decidable (List.Pairwise _ kd))

instance (s : BitCask) : Decidable (EntriesReadable s) :=
  inferInstanceAs (Decidable (∀ e ∈ s.keydir, (Log.read_entry s.log e.2.1 e.2.2).isSome = true))

/-- The engine states reachable through the public interface: an `open`
(on any file contents), followed by any sequence of successful `set`,
`delete` and `compact` calls. -/
inductive Reachable : BitCask → Prop where
  | openFile (file : List Nat) : Reachable (BitCask.new file)
  | setStep (s : BitCask) (k v : List Nat) : Reachable s → Reachable (s.set k v)
  | delStep (s : BitCask) (k : List Nat) : Reachable s → Reachable (s.delete k)
  | compactStep (s t : BitCask) : Reachable s → s.compact = .ok t → Reachable t

/-- The 4 bytes of the `value_len_or_tombstone` field of a frame. -/
def vltBytes : Option (List Nat) → List Nat
  | some v => be32 (v.length % 2 ^ 32)
  | none => [255, 255, 255, 255]

/-- The value bytes of a frame (empty for a tombstone). -/
def valBytes : Option (List Nat) → List Nat
  | some v => v
  | none => []

/-- The effect of one appended frame on a fully rebuilt KeyDir: a put
inserts the value location of the new frame, a tombstone removes the
key. -/
def kdApplyFrame (kd : KeyDir) (k : List Nat) (vs : Option (List Nat)) (base : Nat) : KeyDir :=
  match vs with
  | some v => kdInsert kd k (base + 8 + k.length, v.length)
  | none => kdRemove kd k

/-- A state whose KeyDir is exactly what a rebuild of its log produces,
with the scan loop running cleanly to the end of the file (any sufficient
fuel). -/
def Rebuilds (s : BitCask) : Prop :=
  ∀ f, s.log.length < f → scanLog f s.log 0 [] = (s.keydir, s.log, s.log.length)

/-- The pairs a full forward scan yields: each in-range KeyDir entry's key
with the value read back from the log. -/
def scannedPairs (s : BitCask) (lo hi : RBound) : List (List Nat × List Nat) :=
  (s.scanEntries lo hi).map (fun e => (e.1, (Log.read_entry s.log e.2.1 e.2.2).getD []))

/-- The engine state faithfully tracks the history: the KeyDir is sorted,
holds exactly the keys whose last operation is a put, and each entry
points at the bytes of that put's value. -/
def TracksHistory (s : BitCask) (ops : List Op) : Prop :=
  KdSorted s.keydir ∧
  ∀ k : List Nat,
    (∀ v, lastWrite ops k = some v →
      ∃ p, kdGet s.keydir k = some (p, v.length) ∧
        Log.read_entry s.log p v.length = some v) ∧
    (lastWrite ops k = none → kdGet s.keydir k = none)

/-! ## Basic facts about the byte-level helpers -/

theorem frameBytes_put_length (k v : List Nat) :
    (frameBytes k (some v)).length = 8 + k.length + v.length := by
  simp [frameBytes, be32]
  omega

theorem frameBytes_tomb_length (k : List Nat) :
    (frameBytes k none).length = 8 + k.length := by
  simp [frameBytes, be32]
  omega

theorem fromBe32_be32 {n : Nat} (h : n < 2 ^ 32) : fromBe32 (be32 n) = n := by
  simp [fromBe32, be32]
  omega

theorem decodeLenOrTomb_be32 {n : Nat} (h : n < 2 ^ 31) :
    decodeLenOrTomb (be32 n) = some n := by
  have h32 : n < 2 ^ 32 := by omega
  simp [decodeLenOrTomb, fromBe32_be32 h32]
  omega

theorem decodeLenOrTomb_tomb : decodeLenOrTomb [255, 255, 255, 255] = none := by
  decide

theorem readExactAt_append {f : List Nat} (g : List Nat) {pos n : Nat}
    (h : pos + n ≤ f.length) : readExactAt (f ++ g) pos n = readExactAt f pos n := by
  have h1 : pos + n ≤ (f ++ g).length := by
    simp only [List.length_append]
    omega
  have hd : (f ++ g).drop pos = f.drop pos ++ g.drop (pos - f.length) :=
    List.drop_append_eq_append_drop
  have ht : (f.drop pos ++ g.drop (pos - f.length)).take n = (f.drop pos).take n := by
    apply List.take_append_of_le_length
    simp
    omega
  unfold readExactAt
  rw [if_pos h1, if_pos h, hd, ht]

theorem readFillAt_append {f : List Nat} (g : List Nat) {pos n : Nat}
    (h : pos + n ≤ f.length) : readFillAt (f ++ g) pos n = readFillAt f pos n := by
  have hd : (f ++ g).drop pos = f.drop pos ++ g.drop (pos - f.length) :=
    List.drop_append_eq_append_drop
  have ht : (f.drop pos ++ g.drop (pos - f.length)).take n = (f.drop pos).take n := by
    apply List.take_append_of_le_length
    simp
    omega
  unfold readFillAt
  rw [hd, ht]

theorem readFillAt_length (f : List Nat) (pos n : Nat) : (readFillAt f pos n).length = n := by
  have h : ((f.drop pos).take n).length ≤ n := by simp
  unfold readFillAt
  rw [List.length_append, List.length_replicate]
  omega

theorem readFillAt_of_le {f : List Nat} {pos n : Nat} (h : pos + n ≤ f.length) :
    readFillAt f pos n = (f.drop pos).take n := by
  have hlen : ((f.drop pos).take n).length = n := by
    simp
    omega
  unfold readFillAt
  rw [hlen]
  simp

/-- Characterization of a successful positioned read. -/
theorem read_entry_eq_some_iff {log : List Nat} {p l : Nat} {v : List Nat} :
    Log.read_entry log p l = some v ↔
      (l = 0 ∧ v = []) ∨ (0 < l ∧ p + l ≤ log.length ∧ v = (log.drop p).take l) := by
  unfold Log.read_entry
  split_ifs with h0 hle
  · constructor
    · intro h
      exact Or.inl ⟨h0, by simpa using h.symm⟩
    · rintro (⟨h1, rfl⟩ | ⟨h1, h2, h3⟩)
      · rfl
      · omega
  · constructor
    · intro h
      exact Or.inr ⟨by omega, hle, by simpa using h.symm⟩
    · rintro (⟨h1, rfl⟩ | ⟨h1, h2, rfl⟩)
      · omega
      · rfl
  · constructor
    · intro h
      simp at h
    · rintro (⟨h1, rfl⟩ | ⟨h1, h2, h3⟩)
      · omega
      · omega

theorem read_entry_length {log : List Nat} {p l : Nat} {v : List Nat}
    (h : Log.read_entry log p l = some v) : v.length = l := by
  rcases read_entry_eq_some_iff.mp h with ⟨h0, rfl⟩ | ⟨h0, hle, rfl⟩
  · simp [h0]
  · simp
    omega

theorem read_entry_mono {log : List Nat} (g : List Nat) {p l : Nat} {v : List Nat}
    (h : Log.read_entry log p l = some v) : Log.read_entry (log ++ g) p l = some v := by
  rcases read_entry_eq_some_iff.mp h with ⟨h0, rfl⟩ | ⟨h0, hle, rfl⟩
  · exact read_entry_eq_some_iff.mpr (Or.inl ⟨h0, rfl⟩)
  · refine read_entry_eq_some_iff.mpr (Or.inr ⟨h0, ?_, ?_⟩)
    · simp only [List.length_append]
      omega
    · rw [List.drop_append_eq_append_drop]
      rw [List.take_append_of_le_length]
      simp
      omega

/-- Reading back the value bytes of a freshly appended put frame returns the
value that was written. -/
theorem read_entry_append_frame (log k v : List Nat) :
    Log.read_entry (log ++ frameBytes k (some v)) (log.length + 8 + k.length) v.length
      = some v := by
  by_cases h0 : v.length = 0
  · have hv : v = [] := List.length_eq_zero.mp h0
    simp [Log.read_entry, h0, hv]
  · have hshape : log ++ frameBytes k (some v)
        = (log ++ (be32 (k.length % 2 ^ 32) ++ be32 (v.length % 2 ^ 32) ++ k)) ++ v := by
      simp [frameBytes]
    have hlen : (log ++ (be32 (k.length % 2 ^ 32) ++ be32 (v.length % 2 ^ 32) ++ k)).length
        = log.length + 8 + k.length := by
      simp [be32]
      omega
    have hdrop : (log ++ frameBytes k (some v)).drop (log.length + 8 + k.length) = v := by
      rw [hshape, ← hlen, List.drop_left]
    refine read_entry_eq_some_iff.mpr (Or.inr ⟨by omega, ?_, ?_⟩)
    · rw [List.length_append, frameBytes_put_length]
      omega
    · rw [hdrop, List.take_length]

theorem keyLt_irrefl (k : List Nat) : keyLt k k = false := by
  induction k with
  | nil => rfl
  | cons a as ih => simp [keyLt, ih]

theorem keyLt_trans {a b c : List Nat} (h1 : keyLt a b = true) (h2 : keyLt b c = true) :
    keyLt a c = true := by
  induction a generalizing b c with
  | nil =>
    cases c with
    | nil =>
      cases b with
      | nil => simp [keyLt] at h1
      | cons y ys => simp [keyLt] at h2
    | cons z zs => rfl
  | cons x xs ih =>
    cases b with
    | nil => simp [keyLt] at h1
    | cons y ys =>
      cases c with
      | nil => simp [keyLt] at h2
      | cons z zs =>
        simp [keyLt] at h1 h2 ⊢
        rcases h1 with h1 | ⟨rfl, h1⟩
        · rcases h2 with h2 | ⟨rfl, h2⟩
          · exact Or.inl (Nat.lt_trans h1 h2)
          · exact Or.inl h1
        · rcases h2 with h2 | ⟨rfl, h2⟩
          · exact Or.inl h2
          · exact Or.inr ⟨rfl, ih h1 h2⟩

theorem keyLt_conn {a b : List Nat} (h1 : keyLt a b = false) (h2 : keyLt b a = false) :
    a = b := by
  induction a generalizing b with
  | nil =>
    cases b with
    | nil => rfl
    | cons y ys => simp [keyLt] at h1
  | cons x xs ih =>
    cases b with
    | nil => simp [keyLt] at h2
    | cons y ys =>
      simp [keyLt] at h1 h2
      obtain ⟨h1a, h1b⟩ := h1
      obtain ⟨h2a, h2b⟩ := h2
      have hxy : x = y := by omega
      subst hxy
      rw [ih (h1b rfl) (h2b rfl)]

theorem kdGet_insert_self (kd : KeyDir) (k : List Nat) (v : Nat × Nat) :
    kdGet (kdInsert kd k v) k = some v := by
  induction kd with
  | nil => simp [kdInsert, kdGet]
  | cons e rest ih =>
    obtain ⟨k', v'⟩ := e
    by_cases hlt : keyLt k k'
    · simp [kdInsert, hlt, kdGet]
    · by_cases heq : k = k'
      · subst heq
        simp [kdInsert, keyLt_irrefl, kdGet]
      · simp [kdInsert, hlt, heq, kdGet, ih]

theorem kdGet_insert_ne (kd : KeyDir) (k k1 : List Nat) (v : Nat × Nat) (hne : k1 ≠ k) :
    kdGet (kdInsert kd k v) k1 = kdGet kd k1 := by
  induction kd with
  | nil => simp [kdInsert, kdGet, hne]
  | cons e rest ih =>
    obtain ⟨k', v'⟩ := e
    by_cases hlt : keyLt k k'
    · simp [kdInsert, hlt, kdGet, hne]
    · by_cases heq : k = k'
      · subst heq
        simp [kdInsert, keyLt_irrefl, kdGet, hne]
      · by_cases h1 : k1 = k'
        · simp [kdInsert, hlt, heq, kdGet, h1]
        · simp [kdInsert, hlt, heq, kdGet, h1, ih]

theorem kdGet_remove_ne (kd : KeyDir) (k k1 : List Nat) (hne : k1 ≠ k) :
    kdGet (kdRemove kd k) k1 = kdGet kd k1 := by
  induction kd with
  | nil => simp [kdRemove, kdGet]
  | cons e rest ih =>
    obtain ⟨k', v'⟩ := e
    by_cases heq : k = k'
    · subst heq
      simp [kdRemove, kdGet, hne]
    · by_cases h1 : k1 = k'
      · simp [kdRemove, heq, kdGet, h1]
      · simp [kdRemove, heq, kdGet, h1, ih]

theorem kdGet_eq_none_iff (kd : KeyDir) (k : List Nat) :
    kdGet kd k = none ↔ ∀ e ∈ kd, e.1 ≠ k := by
  induction kd with
  | nil => simp [kdGet]
  | cons e rest ih =>
    obtain ⟨k', v'⟩ := e
    by_cases heq : k = k'
    · subst heq
      simp [kdGet]
    · simp [kdGet, heq, ih, Ne.symm heq]

theorem kdGet_mem {kd : KeyDir} {k : List Nat} {v : Nat × Nat}
    (h : kdGet kd k = some v) : (k, v) ∈ kd := by
  induction kd with
  | nil => simp [kdGet] at h
  | cons e rest ih =>
    obtain ⟨k', v'⟩ := e
    by_cases heq : k = k'
    · subst heq
      simp [kdGet] at h
      simp [h]
    · simp [kdGet, heq] at h
      simp [ih h]

theorem kdRemove_sublist (kd : KeyDir) (k : List Nat) : (kdRemove kd k).Sublist kd := by
  induction kd with
  | nil => simp [kdRemove]
  | cons e rest ih =>
    obtain ⟨k', v'⟩ := e
    by_cases heq : k = k'
    · subst heq
      have hrw : kdRemove ((k, v') :: rest) k = rest := by simp [kdRemove]
      rw [hrw]
      exact List.sublist_cons_self _ _
    · have hrw : kdRemove ((k', v') :: rest) k = (k', v') :: kdRemove rest k := by
        simp [kdRemove, heq]
      rw [hrw]
      exact List.Sublist.cons₂ _ ih

theorem mem_kdRemove {kd : KeyDir} {k : List Nat} {e : List Nat × Nat × Nat}
    (h : e ∈ kdRemove kd k) : e ∈ kd :=
  (kdRemove_sublist kd k).mem h

theorem kdRemove_of_get_none {kd : KeyDir} {k : List Nat}
    (h : kdGet kd k = none) : kdRemove kd k = kd := by
  induction kd with
  | nil => simp [kdRemove]
  | cons e rest ih =>
    obtain ⟨k', v'⟩ := e
    by_cases heq : k = k'
    · simp [kdGet, heq] at h
    · simp [kdGet, heq] at h
      simp [kdRemove, heq, ih h]

theorem mem_kdInsert {kd : KeyDir} {k : List Nat} {v : Nat × Nat}
    {e : List Nat × Nat × Nat} (h : e ∈ kdInsert kd k v) : e ∈ kd ∨ e = (k, v) := by
  induction kd with
  | nil =>
    simp [kdInsert] at h
    simp [h]
  | cons e' rest ih =>
    obtain ⟨k', v'⟩ := e'
    by_cases hlt : keyLt k k'
    · simp [kdInsert, hlt] at h
      rcases h with h | h | h
      · exact Or.inr (by simp [h])
      · exact Or.inl (by simp [h])
      · exact Or.inl (by simp [h])
    · by_cases heq : k = k'
      · subst heq
        simp [kdInsert, keyLt_irrefl] at h
        rcases h with h | h
        · exact Or.inr (by simp [h])
        · exact Or.inl (by simp [h])
      · simp [kdInsert, hlt, heq] at h
        rcases h with h | h
        · exact Or.inl (by simp [h])
        · rcases ih h with h2 | h2
          · exact Or.inl (by simp [h2])
          · exact Or.inr h2

theorem KdSorted.insert : ∀ {kd : KeyDir}, KdSorted kd → ∀ (k : List Nat) (v : Nat × Nat),
    KdSorted (kdInsert kd k v) := by
  intro kd
  induction kd with
  | nil =>
    intro _ k v
    simp [kdInsert, KdSorted]
  | cons e rest ih =>
    intro hs k v
    obtain ⟨k', v'⟩ := e
    obtain ⟨hhead, htail⟩ := List.pairwise_cons.mp hs
    by_cases hlt : keyLt k k'
    · simp only [kdInsert, hlt, if_true]
      refine List.pairwise_cons.mpr ⟨?_, hs⟩
      intro e he
      rcases List.mem_cons.mp he with h | h
      · simp [h, hlt]
      · exact keyLt_trans hlt (hhead e h)
    · by_cases heq : k = k'
      · subst heq
        have hrw : kdInsert ((k, v') :: rest) k v = (k, v) :: rest := by
          simp [kdInsert, keyLt_irrefl]
        rw [hrw]
        exact List.pairwise_cons.mpr ⟨hhead, htail⟩
      · have hrw : kdInsert ((k', v') :: rest) k v = (k', v') :: kdInsert rest k v := by
          simp [kdInsert, hlt, heq]
        rw [hrw]
        refine List.pairwise_cons.mpr ⟨?_, ih htail k v⟩
        intro e he
        rcases mem_kdInsert he with h | h
        · exact hhead e h
        · subst h
          have h1 : keyLt k k' = false := by simpa using hlt
          cases hba : keyLt k' k with
          | true => rfl
          | false => exact absurd (keyLt_conn hba h1) fun hc => heq hc.symm

theorem KdSorted.remove {kd : KeyDir} (hs : KdSorted kd) (k : List Nat) :
    KdSorted (kdRemove kd k) :=
  List.Pairwise.sublist (kdRemove_sublist kd k) hs

theorem kdGet_remove_self : ∀ {kd : KeyDir}, KdSorted kd → ∀ (k : List Nat),
    kdGet (kdRemove kd k) k = none := by
  intro kd
  induction kd with
  | nil =>
    intro _ k
    simp [kdRemove, kdGet]
  | cons e rest ih =>
    intro hs k
    obtain ⟨k', v'⟩ := e
    obtain ⟨hhead, htail⟩ := List.pairwise_cons.mp hs
    by_cases heq : k = k'
    · subst heq
      simp only [kdRemove, if_true, ite_true]
      refine (kdGet_eq_none_iff rest k).mpr fun e he => ?_
      have h2 := hhead e he
      intro hc
      rw [hc] at h2
      simp [keyLt_irrefl] at h2
    · simp [kdRemove, heq, kdGet, ih htail]

theorem kdGet_of_mem : ∀ {kd : KeyDir}, KdSorted kd → ∀ {k : List Nat} {v : Nat × Nat},
    (k, v) ∈ kd → kdGet kd k = some v := by
  intro kd
  induction kd with
  | nil =>
    intro _ k v h
    simp at h
  | cons e rest ih =>
    intro hs k v h
    obtain ⟨k', v'⟩ := e
    obtain ⟨hhead, htail⟩ := List.pairwise_cons.mp hs
    rcases List.mem_cons.mp h with h1 | h1
    · cases h1
      simp [kdGet]
    · by_cases heq : k = k'
      · subst heq
        have h2 := hhead _ h1
        simp [keyLt_irrefl] at h2
      · simp [kdGet, heq]
        exact ih htail h1

theorem mem_iff_kdGet {kd : KeyDir} (hs : KdSorted kd) (k : List Nat) (v : Nat × Nat) :
    (k, v) ∈ kd ↔ kdGet kd k = some v :=
  ⟨fun h => kdGet_of_mem hs h, kdGet_mem⟩

theorem liveSize_insert_le (kd : KeyDir) (k : List Nat) (p l : Nat) :
    liveSize (kdInsert kd k (p, l)) ≤ liveSize kd + (8 + k.length + l) := by
  induction kd with
  | nil => simp [kdInsert, liveSize]
  | cons e rest ih =>
    obtain ⟨k', v'⟩ := e
    by_cases hlt : keyLt k k'
    · simp [kdInsert, hlt, liveSize]
      omega
    · by_cases heq : k = k'
      · subst heq
        simp [kdInsert, keyLt_irrefl, liveSize]
        omega
      · have hrw : kdInsert ((k', v') :: rest) k (p, l) = (k', v') :: kdInsert rest k (p, l) := by
          simp [kdInsert, hlt, heq]
        rw [hrw]
        simp only [liveSize, List.map_cons, List.sum_cons] at ih ⊢
        omega

theorem liveSize_remove_le (kd : KeyDir) (k : List Nat) :
    liveSize (kdRemove kd k) ≤ liveSize kd := by
  induction kd with
  | nil => simp [kdRemove]
  | cons e rest ih =>
    obtain ⟨k', v'⟩ := e
    by_cases heq : k = k'
    · subst heq
      have hrw : kdRemove ((k, v') :: rest) k = rest := by simp [kdRemove]
      rw [hrw]
      simp only [liveSize, List.map_cons, List.sum_cons]
      omega
    · have hrw : kdRemove ((k', v') :: rest) k = (k', v') :: kdRemove rest k := by
        simp [kdRemove, heq]
      rw [hrw]
      simp only [liveSize, List.map_cons, List.sum_cons] at ih ⊢
      omega

/-! ## Shape of the engine operations -/

/-- On the successful path, `set` appends one put frame and inserts the
returned value location; under the header-size bound the `u32` casts are
exact and the location is `(old length + 8 + key length, value length)`. -/
theorem set_eq (s : BitCask) (k v : List Nat) (hb : 8 + k.length + v.length < 2 ^ 32) :
    s.set k v = { log := s.log ++ frameBytes k (some v),
                  keydir := kdInsert s.keydir k (s.log.length + 8 + k.length, v.length) } := by
  have hk : k.length % 2 ^ 32 = k.length := Nat.mod_eq_of_lt (by omega)
  have hv : v.length % 2 ^ 32 = v.length := Nat.mod_eq_of_lt (by omega)
  have hl : (4 + 4 + k.length + v.length) % 2 ^ 32 = 4 + 4 + k.length + v.length :=
    Nat.mod_eq_of_lt (by omega)
  simp only [BitCask.set, BitCask.set_f, Log.write_entry_f, Log.write_entry, hk, hv, hl]
  have hpos : s.log.length + (4 + 4 + k.length + v.length) - v.length
      = s.log.length + 8 + k.length := by omega
  rw [hpos]

/-- `delete` appends one tombstone frame and removes the key. -/
theorem delete_eq (s : BitCask) (k : List Nat) :
    s.delete k = { log := s.log ++ frameBytes k none, keydir := kdRemove s.keydir k } := rfl

/-- `set` always extends the log by exactly the put frame, with no bound. -/
theorem set_log_eq (s : BitCask) (k v : List Nat) :
    (s.set k v).log = s.log ++ frameBytes k (some v) := rfl

/-- `set` always updates the KeyDir by an insert of the returned location. -/
theorem set_keydir_eq (s : BitCask) (k v : List Nat) :
    (s.set k v).keydir = kdInsert s.keydir k
      (s.log.length + (4 + 4 + k.length % 2 ^ 32 + v.length % 2 ^ 32) % 2 ^ 32
        - v.length % 2 ^ 32, v.length % 2 ^ 32) := rfl

/-! ## C7: status fields -/

theorem status_foldl_eq (kd : KeyDir) (a : Nat) :
    kd.foldl (fun acc e => acc + e.1.length + e.2.2) a
      = a + (kd.map (fun e => e.1.length + e.2.2)).sum := by
  induction kd generalizing a with
  | nil => simp
  | cons e rest ih =>
    simp only [List.foldl_cons, List.map_cons, List.sum_cons, ih]
    omega

/-- C7: `status()` returns `keys` = number of KeyDir entries, `size` = the
sum of key and value lengths over the KeyDir, `total_disk_size` = the file
length, `live_disk_size = size + 8·keys`, `garbage_disk_size = total −
live`, and `name = "Bitcask"`. -/
theorem status_fields (s : BitCask) :
    s.status = { name := "Bitcask",
                 keys := s.keydir.length,
                 size := (s.keydir.map (fun e => e.1.length + e.2.2)).sum,
                 total_disk_size := s.log.length,
                 live_disk_size := (s.keydir.map (fun e => e.1.length + e.2.2)).sum
                   + 8 * s.keydir.length,
                 garbage_disk_size := s.log.length
                   - ((s.keydir.map (fun e => e.1.length + e.2.2)).sum
                      + 8 * s.keydir.length) } := by
  simp only [BitCask.status, status_foldl_eq, Nat.zero_add]

/-! ## C9: a failed set leaves the KeyDir unchanged -/

/-- C9: the KeyDir is inserted into only after `write_entry` returns `Ok`;
whenever `set` surfaces an error, the KeyDir field of the resulting state
is exactly the old KeyDir (the log may hold a partial frame). -/
theorem set_error_keydir_unchanged (s : BitCask) (k v : List Nat) (fail : Option Nat)
    (e : EngErr) (h : (s.set_f k v fail).1 = .error e) :
    (s.set_f k v fail).2.keydir = s.keydir := by
  cases fail with
  | none => simp [BitCask.set_f, Log.write_entry_f] at h
  | some n => rfl

theorem set_error_keydir_unchanged_witness :
    ((BitCask.new []).set_f [1] [2] (some 3)).2.keydir = (BitCask.new []).keydir :=
  set_error_keydir_unchanged (BitCask.new []) [1] [2] (some 3) .internal (by decide)

/-! ## C1: compaction reads values through the new log, not the old one -/

/-- C1: compaction does NOT preserve observable state.  On `compactSample`,
`get [98]` returns `[81]` before `compact()`; `compact()` returns `Ok`,
but afterwards `get [98]` returns `[97]` — the byte that happened to sit
at the stale offset inside the NEW log, because `BitCask::write_log` reads
each value through the log it is building (`log.read_entry`) instead of
through the old log (`self.log.read_entry`). -/
theorem compact_reads_through_new_log :
    compactSample.get [98] = .ok (some [81]) ∧
    compactSample.compact.map (fun t => t.get [98]) = .ok (.ok (some [97])) := by
  decide

/-! ## C2: a trailing tombstone frame with a partial key is not truncated -/

/-- C2: opening a log that ends in a partial record does NOT always
truncate to the start of the partial record, and the resulting state is
NOT the state of the log prior to that frame.  On `truncSampleFile` the
partial record starts at offset 11, but after open the file still has all
19 bytes, and — because the failed `read_exact` of the key at line 231 is
ignored — the zero-filled key buffer `[0,0]` is fed to `keydir.remove`,
deleting the live key `[0,0]`: `get [0,0]` returns `none` instead of
`some [5]`. -/
theorem build_keydir_keeps_trailing_tombstone :
    (BitCask.new truncSampleFile).log = truncSampleFile ∧
    (BitCask.new truncSampleFile).log.length = 19 ∧
    (BitCask.new truncSampleFile).keydir = [] ∧
    (BitCask.new truncSampleFile).get [0, 0] = .ok none ∧
    (BitCask.new (truncSampleFile.take 11)).get [0, 0] = .ok (some [5]) := by
  decide

/-! ## C3: open_with_compact swallows the compaction error -/

/-- C3: `new_with_compact` does not surface the error of the `compact()` it
runs.  On `garbageSampleFile` the garbage ratio is 1/2 > 0, so the
compaction is attempted; it fails (its first value read goes through the
empty new log), yet `new_with_compact` returns the uncompacted engine as
`Ok` because the source drops the `Result` of `bitcask.compact()`. -/
theorem new_with_compact_swallows_compact_error :
    ((BitCask.new garbageSampleFile).status.garbage_disk_size : ℚ)
        / ((BitCask.new garbageSampleFile).status.total_disk_size : ℚ) > 0 ∧
    (BitCask.new garbageSampleFile).compact = .error .internal ∧
    BitCask.new_with_compact garbageSampleFile 0 = BitCask.new garbageSampleFile := by
  have h1 : (BitCask.new garbageSampleFile).status.garbage_disk_size = 10 := by decide
  have h2 : (BitCask.new garbageSampleFile).status.total_disk_size = 20 := by decide
  have hc : (BitCask.new garbageSampleFile).compact = .error .internal := by decide
  have hlt : ((BitCask.new garbageSampleFile).status.garbage_disk_size : ℚ)
      / ((BitCask.new garbageSampleFile).status.total_disk_size : ℚ) > 0 := by
    rw [h1, h2]
    norm_num
  refine ⟨hlt, hc, ?_⟩
  show (if ((BitCask.new garbageSampleFile).status.garbage_disk_size : ℚ)
      / ((BitCask.new garbageSampleFile).status.total_disk_size : ℚ) > 0 then
        match (BitCask.new garbageSampleFile).compact with
        | .ok b2 => b2
        | .error _ => BitCask.new garbageSampleFile
      else BitCask.new garbageSampleFile) = BitCask.new garbageSampleFile
  rw [if_pos hlt, hc]

/-! ## C4: round-trip / read-your-writes -/

/-- A KeyDir entry for `k` together with its readable value survives any
sequence of operations that never touches `k`: inserts and removes of
other keys leave the lookup alone, and appends never disturb an
already-readable byte range. -/
theorem entry_stable (k : List Nat) (p l : Nat) (v : List Nat) (ops : List Op) :
    ∀ s : BitCask, kdGet s.keydir k = some (p, l) → Log.read_entry s.log p l = some v →
      (∀ o ∈ ops, o.key ≠ k) →
      kdGet (s.applyOps ops).keydir k = some (p, l) ∧
        Log.read_entry (s.applyOps ops).log p l = some v := by
  induction ops with
  | nil =>
    intro s hg hr _
    exact ⟨hg, hr⟩
  | cons o rest ih =>
    intro s hg hr hops
    have hne : o.key ≠ k := hops o (List.mem_cons_self o rest)
    have hstep : kdGet (s.applyOp o).keydir k = some (p, l) ∧
        Log.read_entry (s.applyOp o).log p l = some v := by
      cases o with
      | set k' v' =>
        simp only [Op.key] at hne
        refine ⟨?_, ?_⟩
        · rw [BitCask.applyOp, set_keydir_eq]
          rw [kdGet_insert_ne _ _ _ _ (Ne.symm hne)]
          exact hg
        · rw [BitCask.applyOp, set_log_eq]
          exact read_entry_mono _ hr
      | del k' =>
        simp only [Op.key] at hne
        refine ⟨?_, ?_⟩
        · rw [BitCask.applyOp, delete_eq]
          rw [kdGet_remove_ne _ _ _ (Ne.symm hne)]
          exact hg
        · rw [BitCask.applyOp, delete_eq]
          exact read_entry_mono _ hr
    have happ : s.applyOps (o :: rest) = (s.applyOp o).applyOps rest := rfl
    rw [happ]
    exact ih (s.applyOp o) hstep.1 hstep.2 (fun o' ho' => hops o' (List.mem_cons_of_mem o ho'))

/-- C4: after `set k v` succeeds, `get k` returns `some v`, for arbitrary
byte content including empty keys and values, and this persists across any
further operations that are not a `set` or `delete` of `k`. -/
theorem set_then_get (s : BitCask) (k v : List Nat) (ops : List Op)
    (hb : 8 + k.length + v.length < 2 ^ 32)
    (hops : ∀ o ∈ ops, o.key ≠ k) :
    ((s.set k v).applyOps ops).get k = .ok (some v) := by
  have hset := set_eq s k v hb
  have h1 : kdGet (s.set k v).keydir k = some (s.log.length + 8 + k.length, v.length) := by
    rw [hset]
    exact kdGet_insert_self _ _ _
  have h2 : Log.read_entry (s.set k v).log (s.log.length + 8 + k.length) v.length = some v := by
    rw [hset]
    exact read_entry_append_frame _ _ _
  obtain ⟨hg, hr⟩ := entry_stable k _ _ v ops (s.set k v) h1 h2 hops
  simp only [BitCask.get, hg, hr]

theorem set_then_get_witness :
    (((BitCask.new []).set [1] []).applyOps [.set [0] [7], .del [2]]).get [1]
      = .ok (some []) :=
  set_then_get (BitCask.new []) [1] [] [.set [0] [7], .del [2]] (by decide) (by decide)

/-! ## C8: delete idempotence -/

/-- Reading the collected scan of the same entries through two logs that
agree on every entry read gives the same result. -/
theorem collectValues_congr (log1 log2 : List Nat) (kd : KeyDir)
    (h : ∀ e ∈ kd, Log.read_entry log1 e.2.1 e.2.2 = Log.read_entry log2 e.2.1 e.2.2) :
    collectValues log1 kd = collectValues log2 kd := by
  induction kd with
  | nil => rfl
  | cons e rest ih =>
    obtain ⟨key, p, l⟩ := e
    have hhead := h (key, p, l) (List.mem_cons_self _ _)
    simp only [collectValues, hhead]
    rw [ih fun e he => h e (List.mem_cons_of_mem _ he)]

/-- C8: `delete k; delete k` is observationally equal (on `get` over any
key and `scan` over any range, in both directions) to a single
`delete k`; and deleting a key — present or absent — is not an error and
always appends exactly one tombstone frame to the log; on an absent key
the KeyDir is left unchanged. -/
theorem delete_idempotent (s : BitCask) (k k1 : List Nat) (lo hi : RBound)
    (hs : KdSorted s.keydir) (hr : EntriesReadable s) :
    ((s.delete k).delete k).get k1 = (s.delete k).get k1 ∧
    ((s.delete k).delete k).scanValues lo hi = (s.delete k).scanValues lo hi ∧
    ((s.delete k).delete k).scanValuesRev lo hi = (s.delete k).scanValuesRev lo hi ∧
    (s.delete k).log = s.log ++ frameBytes k none ∧
    (kdGet s.keydir k = none → (s.delete k).keydir = s.keydir) := by
  have hkd1 : (s.delete k).keydir = kdRemove s.keydir k := rfl
  have hkd2 : ((s.delete k).delete k).keydir = kdRemove s.keydir k := by
    show kdRemove (kdRemove s.keydir k) k = kdRemove s.keydir k
    apply kdRemove_of_get_none
    exact kdGet_remove_self hs k
  have hread : ∀ key p l, (key, (p, l)) ∈ kdRemove s.keydir k →
      Log.read_entry ((s.delete k).delete k).log p l
        = Log.read_entry (s.delete k).log p l := by
    intro key p l he
    have he' : (key, (p, l)) ∈ s.keydir := mem_kdRemove he
    obtain ⟨v, hv⟩ := Option.isSome_iff_exists.mp (hr (key, (p, l)) he')
    have hv1 : Log.read_entry (s.delete k).log p l = some v := by
      rw [delete_eq]
      exact read_entry_mono _ hv
    have hv2 : Log.read_entry ((s.delete k).delete k).log p l = some v := by
      rw [show ((s.delete k).delete k).log = (s.delete k).log ++ frameBytes k none from rfl]
      exact read_entry_mono _ hv1
    rw [hv1, hv2]
  have hread' : ∀ e ∈ kdRemove s.keydir k,
      Log.read_entry ((s.delete k).delete k).log e.2.1 e.2.2
        = Log.read_entry (s.delete k).log e.2.1 e.2.2 := by
    intro e he
    obtain ⟨key, p, l⟩ := e
    exact hread key p l he
  refine ⟨?_, ?_, ?_, rfl, fun h => ?_⟩
  · simp only [BitCask.get, hkd1, hkd2]
    cases hg : kdGet (kdRemove s.keydir k) k1 with
    | none => rfl
    | some pv =>
      obtain ⟨p, l⟩ := pv
      have hm : (k1, (p, l)) ∈ kdRemove s.keydir k := kdGet_mem hg
      show (match Log.read_entry ((s.delete k).delete k).log p l with
            | some v => Except.ok (some v)
            | none => Except.error EngErr.internal)
          = (match Log.read_entry (s.delete k).log p l with
            | some v => Except.ok (some v)
            | none => Except.error EngErr.internal)
      rw [hread k1 p l hm]
  · rw [BitCask.scanValues, BitCask.scanValues, BitCask.scanEntries, BitCask.scanEntries,
      hkd1, hkd2]
    exact collectValues_congr _ _ _ fun e he => hread' e (List.mem_filter.mp he).1
  · rw [BitCask.scanValuesRev, BitCask.scanValuesRev, BitCask.scanEntries, BitCask.scanEntries,
      hkd1, hkd2]
    refine collectValues_congr _ _ _ fun e he => ?_
    exact hread' e (List.mem_filter.mp (List.mem_reverse.mp he)).1
  · rw [hkd1, kdRemove_of_get_none h]

theorem delete_idempotent_witness :
    let s := BitCask.applyOps (BitCask.new []) [.set [2] [7], .set [5] []]
    ((s.delete [2]).delete [2]).get [5] = (s.delete [2]).get [5] ∧
    ((s.delete [2]).delete [2]).scanValues .unbounded .unbounded
      = (s.delete [2]).scanValues .unbounded .unbounded ∧
    ((s.delete [2]).delete [2]).scanValuesRev .unbounded .unbounded
      = (s.delete [2]).scanValuesRev .unbounded .unbounded ∧
    (s.delete [2]).log = s.log ++ frameBytes [2] none ∧
    (kdGet s.keydir [2] = none → (s.delete [2]).keydir = s.keydir) :=
  delete_idempotent _ [2] [5] .unbounded .unbounded (by decide) (by decide)

/-! ## C10: live size never exceeds the file length -/

theorem liveSize_eq (kd : KeyDir) :
    liveSize kd = (kd.map (fun e => e.1.length + e.2.2)).sum + 8 * kd.length := by
  induction kd with
  | nil => simp [liveSize]
  | cons e rest ih =>
    simp only [liveSize, List.map_cons, List.sum_cons, List.length_cons] at ih ⊢
    omega

theorem status_live_eq (s : BitCask) : s.status.live_disk_size = liveSize s.keydir := by
  show s.keydir.foldl (fun acc e => acc + e.1.length + e.2.2) 0 + 8 * s.keydir.length
      = liveSize s.keydir
  rw [status_foldl_eq, liveSize_eq]
  omega

theorem status_total_eq (s : BitCask) : s.status.total_disk_size = s.log.length := rfl

/-- Invariant of the `build_keydir` scan loop: if the accounted live bytes
are bounded by the current position and by the file length, the final
KeyDir's live bytes are bounded by the final (possibly truncated) file
length. -/
theorem scanLog_liveSize : ∀ (fuel : Nat) (file : List Nat) (pos : Nat) (kd : KeyDir),
    liveSize kd ≤ pos → liveSize kd ≤ file.length →
    liveSize (scanLog fuel file pos kd).1 ≤ (scanLog fuel file pos kd).2.1.length := by
  intro fuel
  induction fuel with
  | zero =>
    intro file pos kd h1 h2
    simpa [scanLog] using h2
  | succ f ih =>
    intro file pos kd h1 h2
    simp only [scanLog]
    split
    next hp =>
      split
      next hk =>
        simp only [List.length_take]
        omega
      next klb hk =>
        split
        next hv =>
          simp only [List.length_take]
          omega
        next vlb hv =>
          split
          next value_len hd =>
            split
            next hchk =>
              simp only [List.length_take]
              omega
            next hchk =>
              apply ih
              · have hins := liveSize_insert_le kd
                  (readFillAt file (pos + 8) (fromBe32 klb))
                  (pos + 4 + 4 + fromBe32 klb) value_len
                rw [readFillAt_length] at hins
                omega
              · have hins := liveSize_insert_le kd
                  (readFillAt file (pos + 8) (fromBe32 klb))
                  (pos + 4 + 4 + fromBe32 klb) value_len
                rw [readFillAt_length] at hins
                omega
          next hd =>
            apply ih
            · have hrem := liveSize_remove_le kd (readFillAt file (pos + 8) (fromBe32 klb))
              omega
            · have hrem := liveSize_remove_le kd (readFillAt file (pos + 8) (fromBe32 klb))
              omega
    next hp =>
      exact h2

/-- Invariant of the compaction rewrite loop: each iteration appends a
frame at least as long as the live bytes the inserted entry accounts
for. -/
theorem write_log_go_liveSize : ∀ (entries : KeyDir) (log : List Nat) (kd : KeyDir)
    (out : List Nat × KeyDir), liveSize kd ≤ log.length →
    BitCask.write_log_go log kd entries = .ok out → liveSize out.2 ≤ out.1.length := by
  intro entries
  induction entries with
  | nil =>
    intro log kd out h hgo
    simp only [BitCask.write_log_go, Except.ok.injEq] at hgo
    rw [← hgo]
    exact h
  | cons e rest ih =>
    intro log kd out h hgo
    obtain ⟨key, p, l⟩ := e
    cases hrd : Log.read_entry log p l with
    | none =>
      simp only [BitCask.write_log_go, hrd] at hgo
      exact Except.noConfusion hgo
    | some value =>
      simp only [BitCask.write_log_go, hrd] at hgo
      refine ih _ _ _ ?_ hgo
      show liveSize (kdInsert kd key
          (log.length + (4 + 4 + key.length % 2 ^ 32 + value.length % 2 ^ 32) % 2 ^ 32
            - value.length % 2 ^ 32, value.length % 2 ^ 32))
        ≤ (log ++ frameBytes key (some value)).length
      have hins := liveSize_insert_le kd key
        (log.length + (4 + 4 + key.length % 2 ^ 32 + value.length % 2 ^ 32) % 2 ^ 32
          - value.length % 2 ^ 32) (value.length % 2 ^ 32)
      have hmod : value.length % 2 ^ 32 ≤ value.length := Nat.mod_le _ _
      rw [List.length_append, frameBytes_put_length]
      omega

theorem reachable_liveSize {s : BitCask} (h : Reachable s) :
    liveSize s.keydir ≤ s.log.length := by
  induction h with
  | openFile file =>
    have hbase := scanLog_liveSize (file.length + 1) file 0 []
      (by simp [liveSize]) (by simp [liveSize])
    exact hbase
  | setStep s k v hs ih =>
    rw [set_keydir_eq, set_log_eq]
    have hins := liveSize_insert_le s.keydir k
      (s.log.length + (4 + 4 + k.length % 2 ^ 32 + v.length % 2 ^ 32) % 2 ^ 32
        - v.length % 2 ^ 32) (v.length % 2 ^ 32)
    have hmod : v.length % 2 ^ 32 ≤ v.length := Nat.mod_le _ _
    rw [List.length_append, frameBytes_put_length]
    omega
  | delStep s k hs ih =>
    rw [delete_eq]
    have hrem := liveSize_remove_le s.keydir k
    show liveSize (kdRemove s.keydir k) ≤ (s.log ++ frameBytes k none).length
    rw [List.length_append, frameBytes_tomb_length]
    omega
  | compactStep s t hs hok ih =>
    unfold BitCask.compact at hok
    cases hw : s.write_log with
    | error e =>
      rw [hw] at hok
      simp at hok
    | ok p =>
      rw [hw] at hok
      simp only [Except.ok.injEq] at hok
      have hb := write_log_go_liveSize s.keydir [] [] p (by simp [liveSize]) hw
      rw [← hok]
      exact hb

/-- C10: in every reachable engine state, `live_disk_size` is at most
`total_disk_size`, so the `u64` subtraction computing
`garbage_disk_size` in `status()` cannot underflow. -/
theorem live_le_total (s : BitCask) (h : Reachable s) :
    s.status.live_disk_size ≤ s.status.total_disk_size := by
  rw [status_live_eq, status_total_eq]
  exact reachable_liveSize h

theorem live_le_total_witness :
    (BitCask.new []).status.live_disk_size ≤ (BitCask.new []).status.total_disk_size :=
  live_le_total (BitCask.new []) (Reachable.openFile [])

/-! ## C5: reopen equivalence -/

theorem readExactAt_le {f : List Nat} {pos n : Nat} {out : List Nat}
    (h : readExactAt f pos n = some out) : pos + n ≤ f.length := by
  by_contra hc
  simp [readExactAt, hc] at h

theorem scanLog_at_end (fuel : Nat) (file : List Nat) (pos : Nat) (kd : KeyDir)
    (h : ¬ pos < file.length) : scanLog fuel file pos kd = (kd, file, pos) := by
  cases fuel with
  | zero => rfl
  | succ f => simp [scanLog, h]

theorem frameBytes_length_ge (k : List Nat) (vs : Option (List Nat)) :
    8 ≤ (frameBytes k vs).length := by
  cases vs with
  | some v =>
    rw [frameBytes_put_length]
    omega
  | none =>
    rw [frameBytes_tomb_length]
    omega

theorem ext_length_put (file k v : List Nat) :
    (file ++ frameBytes k (some v)).length = file.length + 8 + k.length + v.length := by
  rw [List.length_append, frameBytes_put_length]
  omega

theorem ext_length_tomb (file k : List Nat) :
    (file ++ frameBytes k none).length = file.length + 8 + k.length := by
  rw [List.length_append, frameBytes_tomb_length]
  omega

theorem frameBytes_decomp (k : List Nat) (vs : Option (List Nat)) :
    frameBytes k vs = be32 (k.length % 2 ^ 32) ++ (vltBytes vs ++ (k ++ valBytes vs)) := by
  cases vs <;> simp [frameBytes, vltBytes, valBytes]

theorem ext_read_klen (file k : List Nat) (vs : Option (List Nat)) :
    readExactAt (file ++ frameBytes k vs) file.length 4 = some (be32 (k.length % 2 ^ 32)) := by
  have hlen4 : (be32 (k.length % 2 ^ 32)).length = 4 := rfl
  have hge : file.length + 4 ≤ (file ++ frameBytes k vs).length := by
    rw [List.length_append]
    have := frameBytes_length_ge k vs
    omega
  unfold readExactAt
  rw [if_pos hge, List.drop_left, frameBytes_decomp,
    List.take_append_of_le_length (le_of_eq hlen4.symm), ← hlen4, List.take_length]

theorem vltBytes_length (vs : Option (List Nat)) : (vltBytes vs).length = 4 := by
  cases vs <;> simp [vltBytes, be32]

theorem ext_read_vlt (file k : List Nat) (vs : Option (List Nat)) :
    readExactAt (file ++ frameBytes k vs) (file.length + 4) 4 = some (vltBytes vs) := by
  have hshape : file ++ frameBytes k vs
      = (file ++ be32 (k.length % 2 ^ 32)) ++ (vltBytes vs ++ (k ++ valBytes vs)) := by
    rw [frameBytes_decomp, List.append_assoc]
  have hlen1 : (file ++ be32 (k.length % 2 ^ 32)).length = file.length + 4 := by
    simp [be32]
  have hvltlen := vltBytes_length vs
  have hge : file.length + 4 + 4 ≤ (file ++ frameBytes k vs).length := by
    rw [List.length_append]
    have := frameBytes_length_ge k vs
    omega
  unfold readExactAt
  rw [if_pos (by omega), hshape, ← hlen1, List.drop_left,
    List.take_append_of_le_length (le_of_eq hvltlen.symm), ← hvltlen, List.take_length]

theorem ext_read_vlt_put (file k v : List Nat) :
    readExactAt (file ++ frameBytes k (some v)) (file.length + 4) 4
      = some (be32 (v.length % 2 ^ 32)) :=
  ext_read_vlt file k (some v)

theorem ext_read_vlt_tomb (file k : List Nat) :
    readExactAt (file ++ frameBytes k none) (file.length + 4) 4
      = some [255, 255, 255, 255] :=
  ext_read_vlt file k none

theorem ext_readFill_key (file k : List Nat) (vs : Option (List Nat)) :
    readFillAt (file ++ frameBytes k vs) (file.length + 8) k.length = k := by
  have hshape : file ++ frameBytes k vs
      = ((file ++ be32 (k.length % 2 ^ 32)) ++ vltBytes vs) ++ (k ++ valBytes vs) := by
    rw [frameBytes_decomp]
    simp [List.append_assoc]
  have hlen2 : (((file ++ be32 (k.length % 2 ^ 32)) ++ vltBytes vs)).length
      = file.length + 8 := by
    rw [List.length_append, List.length_append, vltBytes_length]
    simp [be32]
  have hdrop : (file ++ frameBytes k vs).drop (file.length + 8) = k ++ valBytes vs := by
    rw [hshape, ← hlen2, List.drop_left]
  have htake : (k ++ valBytes vs).take k.length = k := by
    rw [List.take_append_of_le_length (Nat.le_refl _), List.take_length]
  unfold readFillAt
  rw [hdrop, htake]
  simp

/-- Appending one well-formed frame to a log on which the scan loop runs
cleanly (no truncation, stopping exactly at the file end) extends the run:
the scan of the extended file performs the same steps and then processes
the appended frame. -/
theorem scanLog_append_frame (k : List Nat) (vs : Option (List Nat))
    (hkl : k.length < 2 ^ 32) (hvs : ∀ v, vs = some v → v.length < 2 ^ 31)
    (file : List Nat) :
    ∀ (f1 : Nat) (pos : Nat) (kd kd0 : KeyDir) (f2 : Nat), pos ≤ file.length →
      file.length - pos < f1 → (file ++ frameBytes k vs).length - pos < f2 →
      scanLog f1 file pos kd = (kd0, file, file.length) →
      scanLog f2 (file ++ frameBytes k vs) pos kd
        = (kdApplyFrame kd0 k vs file.length, file ++ frameBytes k vs,
           (file ++ frameBytes k vs).length) := by
  intro f1
  induction f1 with
  | zero =>
    intro pos kd kd0 f2 hpos hf1 hf2 hrun
    omega
  | succ f ih =>
    intro pos kd kd0 f2 hpos hf1 hf2 hrun
    have hfg := frameBytes_length_ge k vs
    have hextlen : (file ++ frameBytes k vs).length = file.length + (frameBytes k vs).length :=
      List.length_append _ _
    cases f2 with
    | zero => omega
    | succ f2' =>
    have hk1 : k.length % 2 ^ 32 = k.length := Nat.mod_eq_of_lt hkl
    by_cases hp : pos < file.length
    case neg =>
      have hpe : pos = file.length := by omega
      subst hpe
      rw [scanLog_at_end _ _ _ _ hp] at hrun
      have hkd0 : kd = kd0 := congrArg (fun t => t.1) hrun
      subst hkd0
      cases vs with
      | some v =>
        have hv31 : v.length < 2 ^ 31 := hvs v rfl
        have hv1 : v.length % 2 ^ 32 = v.length := Nat.mod_eq_of_lt (by omega)
        have hplt : file.length < (file ++ frameBytes k (some v)).length := by
          rw [ext_length_put]
          omega
        have hfrom : fromBe32 (be32 (k.length % 2 ^ 32)) = k.length := by
          rw [hk1]
          exact fromBe32_be32 hkl
        have hdec : decodeLenOrTomb (be32 (v.length % 2 ^ 32)) = some v.length := by
          rw [hv1]
          exact decodeLenOrTomb_be32 hv31
        have hchk : ¬ (v.length + (file.length + 4 + 4 + k.length)
            > (file ++ frameBytes k (some v)).length) := by
          rw [ext_length_put]
          omega
        have hdone : ¬ (file.length + 4 + 4 + k.length + v.length
            < (file ++ frameBytes k (some v)).length) := by
          rw [ext_length_put]
          omega
        simp only [scanLog, hplt, if_true, ext_read_klen, ext_read_vlt_put, hfrom, hdec,
          ext_readFill_key, if_neg hchk]
        rw [scanLog_at_end _ _ _ _ hdone]
        simp only [kdApplyFrame]
        have h48 : file.length + 4 + 4 + k.length = file.length + 8 + k.length := by omega
        rw [h48, ext_length_put]
      | none =>
        have hplt : file.length < (file ++ frameBytes k none).length := by
          rw [ext_length_tomb]
          omega
        have hfrom : fromBe32 (be32 (k.length % 2 ^ 32)) = k.length := by
          rw [hk1]
          exact fromBe32_be32 hkl
        have hdone : ¬ (file.length + 4 + 4 + k.length
            < (file ++ frameBytes k none).length) := by
          rw [ext_length_tomb]
          omega
        simp only [scanLog, hplt, if_true, ext_read_klen, ext_read_vlt_tomb, hfrom,
          decodeLenOrTomb_tomb, ext_readFill_key]
        rw [scanLog_at_end _ _ _ _ hdone]
        simp only [kdApplyFrame]
        have h48 : file.length + 4 + 4 + k.length = file.length + 8 + k.length := by omega
        rw [h48, ext_length_tomb]
    case pos =>
      simp only [scanLog, hp, if_true] at hrun
      cases hk : readExactAt file pos 4 with
      | none =>
        simp only [hk] at hrun
        have hlen : (file.take pos).length = file.length :=
          congrArg (fun t => t.2.1.length) hrun
        simp only [List.length_take] at hlen
        omega
      | some klb =>
        simp only [hk] at hrun
        cases hv : readExactAt file (pos + 4) 4 with
        | none =>
          simp only [hv] at hrun
          have hlen : (file.take pos).length = file.length :=
            congrArg (fun t => t.2.1.length) hrun
          simp only [List.length_take] at hlen
          omega
        | some vlb =>
          simp only [hv] at hrun
          have hk4 : pos + 4 ≤ file.length := readExactAt_le hk
          have hv4 : pos + 4 + 4 ≤ file.length := readExactAt_le hv
          have hplt2 : pos < (file ++ frameBytes k vs).length := by omega
          cases hd : decodeLenOrTomb vlb with
          | some value_len =>
            simp only [hd] at hrun
            by_cases hchk : value_len + (pos + 4 + 4 + fromBe32 klb) > file.length
            · rw [if_pos hchk] at hrun
              have hlen : (file.take pos).length = file.length :=
                congrArg (fun t => t.2.1.length) hrun
              simp only [List.length_take] at hlen
              omega
            · rw [if_neg hchk] at hrun
              have hkey_le : pos + 8 + fromBe32 klb ≤ file.length := by omega
              have hchk2 : ¬ (value_len + (pos + 4 + 4 + fromBe32 klb)
                  > (file ++ frameBytes k vs).length) := by
                rw [List.length_append]
                omega
              simp only [scanLog, hplt2, if_true,
                readExactAt_append (frameBytes k vs) hk4, hk,
                readExactAt_append (frameBytes k vs) hv4, hv, hd,
                readFillAt_append (frameBytes k vs) hkey_le, if_neg hchk2]
              exact ih (pos + 4 + 4 + fromBe32 klb + value_len)
                (kdInsert kd (readFillAt file (pos + 8) (fromBe32 klb))
                  (pos + 4 + 4 + fromBe32 klb, value_len)) kd0 f2'
                (by omega) (by omega) (by omega) hrun
          | none =>
            simp only [hd] at hrun
            have hvp : pos + 4 + 4 + fromBe32 klb ≤ file.length := by
              by_contra hc
              rw [scanLog_at_end f file _ _ (by omega)] at hrun
              have h3 : pos + 4 + 4 + fromBe32 klb = file.length :=
                congrArg (fun t => t.2.2) hrun
              omega
            have hkey_le : pos + 8 + fromBe32 klb ≤ file.length := by omega
            simp only [scanLog, hplt2, if_true,
              readExactAt_append (frameBytes k vs) hk4, hk,
              readExactAt_append (frameBytes k vs) hv4, hv, hd,
              readFillAt_append (frameBytes k vs) hkey_le]
            exact ih (pos + 4 + 4 + fromBe32 klb)
              (kdRemove kd (readFillAt file (pos + 8) (fromBe32 klb))) kd0 f2'
              (by omega) (by omega) (by omega) hrun

theorem rebuilds_new {s : BitCask} (h : Rebuilds s) : BitCask.new s.log = s := by
  obtain ⟨slog, skd⟩ := s
  have h1 : scanLog (slog.length + 1) slog 0 [] = (skd, slog, slog.length) :=
    h (slog.length + 1) (Nat.lt_succ_self _)
  simp only [BitCask.new, Log.build_keydir]
  rw [h1]

theorem Rebuilds.applyOp {s : BitCask} (h : Rebuilds s) (o : Op) (hb : o.boundedB = true) :
    Rebuilds (s.applyOp o) := by
  cases o with
  | set k v =>
    simp only [Op.boundedB, Bool.and_eq_true, decide_eq_true_eq] at hb
    obtain ⟨hb1, hb2⟩ := hb
    intro f hf
    have hset := set_eq s k v (by omega)
    have hlog : (s.applyOp (Op.set k v)).log = s.log ++ frameBytes k (some v) := by
      rw [BitCask.applyOp, hset]
    have hkd : (s.applyOp (Op.set k v)).keydir
        = kdInsert s.keydir k (s.log.length + 8 + k.length, v.length) := by
      rw [BitCask.applyOp, hset]
    rw [hlog] at hf
    rw [hlog, hkd]
    have happ := scanLog_append_frame k (some v) (by omega)
      (fun v' hv' => by cases hv'; omega) s.log (s.log.length + 1) 0 [] s.keydir f
      (by omega) (by omega) (by omega) (h (s.log.length + 1) (Nat.lt_succ_self _))
    rw [happ]
    simp only [kdApplyFrame]
  | del k =>
    simp only [Op.boundedB, decide_eq_true_eq] at hb
    intro f hf
    have hlog : (s.applyOp (Op.del k)).log = s.log ++ frameBytes k none := rfl
    have hkd : (s.applyOp (Op.del k)).keydir = kdRemove s.keydir k := rfl
    rw [hlog] at hf
    rw [hlog, hkd]
    have happ := scanLog_append_frame k none hb
      (fun v' hv' => by cases hv') s.log (s.log.length + 1) 0 [] s.keydir f
      (by omega) (by omega) (by omega) (h (s.log.length + 1) (Nat.lt_succ_self _))
    rw [happ]
    simp only [kdApplyFrame]

theorem rebuilds_applyOps {s : BitCask} (h : Rebuilds s) (ops : List Op)
    (hb : ∀ o ∈ ops, o.boundedB = true) : Rebuilds (s.applyOps ops) := by
  induction ops generalizing s with
  | nil => exact h
  | cons o rest ih =>
    exact ih (h.applyOp o (hb o (List.mem_cons_self _ _)))
      (fun o' ho' => hb o' (List.mem_cons_of_mem _ ho'))

theorem rebuilds_empty : Rebuilds (BitCask.new []) := by
  intro f hf
  show scanLog f [] 0 [] = ([], [], 0)
  cases f with
  | zero => omega
  | succ f' => simp [scanLog]

/-- C5: for any bounded history of sets and deletes applied to a freshly
opened empty engine, reopening the engine on the produced log file
rebuilds exactly the same state — the same log (no truncation happens, as
the file ends in no partial record) and the same KeyDir, hence identical
get/scan behavior; the front-to-back rebuild makes the later record for
each key win. -/
theorem reopen_equiv (ops : List Op) (hb : ∀ o ∈ ops, o.boundedB = true) :
    BitCask.new ((BitCask.new []).applyOps ops).log = (BitCask.new []).applyOps ops :=
  rebuilds_new (rebuilds_applyOps rebuilds_empty ops hb)

theorem reopen_equiv_witness :
    BitCask.new ((BitCask.new []).applyOps
        [Op.set [1] [2], Op.del [1], Op.set [] [5], Op.set [3] []]).log
      = (BitCask.new []).applyOps [Op.set [1] [2], Op.del [1], Op.set [] [5], Op.set [3] []] :=
  reopen_equiv [Op.set [1] [2], Op.del [1], Op.set [] [5], Op.set [3] []] (by decide)

/-! ## C6: scan is sorted and complete -/

theorem collectValues_eq_map (log : List Nat) (kd : KeyDir)
    (h : ∀ e ∈ kd, (Log.read_entry log e.2.1 e.2.2).isSome = true) :
    collectValues log kd
      = .ok (kd.map (fun e => (e.1, (Log.read_entry log e.2.1 e.2.2).getD []))) := by
  induction kd with
  | nil => rfl
  | cons e rest ih =>
    obtain ⟨key, p, l⟩ := e
    obtain ⟨v, hv⟩ := Option.isSome_iff_exists.mp (h (key, p, l) (List.mem_cons_self _ _))
    simp only [collectValues, hv, List.map_cons]
    rw [ih (fun e he => h e (List.mem_cons_of_mem _ he))]
    simp [hv]

theorem lastWrite_snoc_set (ops : List Op) (k' v' k : List Nat) :
    lastWrite (ops ++ [Op.set k' v']) k = if k' = k then some v' else lastWrite ops k := by
  unfold lastWrite
  rw [List.foldl_append]
  rfl

theorem lastWrite_snoc_del (ops : List Op) (k' k : List Nat) :
    lastWrite (ops ++ [Op.del k']) k = if k' = k then none else lastWrite ops k := by
  unfold lastWrite
  rw [List.foldl_append]
  rfl

theorem tracksHistory_applyOp {s : BitCask} {ops : List Op} (h : TracksHistory s ops)
    (o : Op) (hb : o.boundedB = true) : TracksHistory (s.applyOp o) (ops ++ [o]) := by
  obtain ⟨hsort, hmain⟩ := h
  cases o with
  | set k' v' =>
    simp only [Op.boundedB, Bool.and_eq_true, decide_eq_true_eq] at hb
    obtain ⟨hb1, hb2⟩ := hb
    have hset := set_eq s k' v' (by omega)
    have hkd : (s.applyOp (Op.set k' v')).keydir
        = kdInsert s.keydir k' (s.log.length + 8 + k'.length, v'.length) := by
      rw [BitCask.applyOp, hset]
    have hlog : (s.applyOp (Op.set k' v')).log = s.log ++ frameBytes k' (some v') := by
      rw [BitCask.applyOp, hset]
    constructor
    · rw [hkd]
      exact hsort.insert _ _
    · intro k
      constructor
      · intro v hlw
        rw [lastWrite_snoc_set] at hlw
        by_cases heq : k' = k
        · rw [if_pos heq] at hlw
          have hvv : v' = v := by simpa using hlw
          subst hvv
          subst heq
          refine ⟨s.log.length + 8 + k'.length, ?_, ?_⟩
          · rw [hkd]
            exact kdGet_insert_self _ _ _
          · rw [hlog]
            exact read_entry_append_frame _ _ _
        · rw [if_neg heq] at hlw
          obtain ⟨p, hg, hr⟩ := (hmain k).1 v hlw
          refine ⟨p, ?_, ?_⟩
          · rw [hkd, kdGet_insert_ne _ _ _ _ (Ne.symm heq)]
            exact hg
          · rw [hlog]
            exact read_entry_mono _ hr
      · intro hlw
        rw [lastWrite_snoc_set] at hlw
        by_cases heq : k' = k
        · rw [if_pos heq] at hlw
          exact Option.noConfusion hlw
        · rw [if_neg heq] at hlw
          rw [hkd, kdGet_insert_ne _ _ _ _ (Ne.symm heq)]
          exact (hmain k).2 hlw
  | del k' =>
    have hkd : (s.applyOp (Op.del k')).keydir = kdRemove s.keydir k' := rfl
    have hlog : (s.applyOp (Op.del k')).log = s.log ++ frameBytes k' none := rfl
    constructor
    · rw [hkd]
      exact hsort.remove _
    · intro k
      constructor
      · intro v hlw
        rw [lastWrite_snoc_del] at hlw
        by_cases heq : k' = k
        · rw [if_pos heq] at hlw
          exact Option.noConfusion hlw
        · rw [if_neg heq] at hlw
          obtain ⟨p, hg, hr⟩ := (hmain k).1 v hlw
          refine ⟨p, ?_, ?_⟩
          · rw [hkd, kdGet_remove_ne _ _ _ (Ne.symm heq)]
            exact hg
          · rw [hlog]
            exact read_entry_mono _ hr
      · intro hlw
        rw [lastWrite_snoc_del] at hlw
        by_cases heq : k' = k
        · subst heq
          rw [hkd]
          exact kdGet_remove_self hsort _
        · rw [if_neg heq] at hlw
          rw [hkd, kdGet_remove_ne _ _ _ (Ne.symm heq)]
          exact (hmain k).2 hlw

theorem tracksHistory_applyOps (ops : List Op) :
    (∀ o ∈ ops, Op.boundedB o = true) →
    TracksHistory ((BitCask.new []).applyOps ops) ops := by
  induction ops using List.reverseRecOn with
  | nil =>
    intro _
    constructor
    · show KdSorted ([] : KeyDir)
      exact List.Pairwise.nil
    · intro k
      constructor
      · intro v hlw
        simp [lastWrite] at hlw
      · intro _
        rfl
  | append_singleton ops o ih =>
    intro hb
    have hbo : Op.boundedB o = true := hb o (by simp)
    have hbops : ∀ o' ∈ ops, Op.boundedB o' = true := fun o' ho' => hb o' (by simp [ho'])
    have happ : (BitCask.new []).applyOps (ops ++ [o])
        = ((BitCask.new []).applyOps ops).applyOp o := by
      unfold BitCask.applyOps
      rw [List.foldl_append]
      rfl
    rw [happ]
    exact tracksHistory_applyOp (ih hbops) o hbo

/-- The scan specification, for any state that tracks a history. -/
theorem scan_spec_of_tracks {s : BitCask} {ops : List Op} (ht : TracksHistory s ops)
    (lo hi : RBound) :
    s.scanValues lo hi = .ok (scannedPairs s lo hi) ∧
    List.Pairwise (fun a b => keyLt a.1 b.1 = true) (scannedPairs s lo hi) ∧
    (∀ k v, (k, v) ∈ scannedPairs s lo hi ↔
      (lastWrite ops k = some v ∧ inRange lo hi k = true)) ∧
    s.scanValuesRev lo hi = .ok (scannedPairs s lo hi).reverse := by
  obtain ⟨hsort, hmain⟩ := ht
  have hreads : ∀ e ∈ s.keydir, (Log.read_entry s.log e.2.1 e.2.2).isSome = true := by
    intro e he
    obtain ⟨key, p, l⟩ := e
    have hget : kdGet s.keydir key = some (p, l) := kdGet_of_mem hsort he
    cases hlw : lastWrite ops key with
    | none =>
      rw [(hmain key).2 hlw] at hget
      exact Option.noConfusion hget
    | some v =>
      obtain ⟨p', hg, hr⟩ := (hmain key).1 v hlw
      rw [hget] at hg
      have hpl : (p, l) = (p', v.length) := by simpa using hg
      obtain ⟨hp', hl'⟩ := Prod.mk.injEq .. |>.mp hpl
      subst hp'
      subst hl'
      simp [hr]
  have hfilter_sub : ∀ e ∈ s.scanEntries lo hi, e ∈ s.keydir :=
    fun e he => (List.mem_filter.mp he).1
  have hcv := collectValues_eq_map s.log (s.scanEntries lo hi)
    (fun e he => hreads e (hfilter_sub e he))
  have hcvrev := collectValues_eq_map s.log (s.scanEntries lo hi).reverse
    (fun e he => hreads e (hfilter_sub e (List.mem_reverse.mp he)))
  refine ⟨hcv, ?_, ?_, ?_⟩
  · exact List.pairwise_map.mpr (hsort.filter _)
  · intro k v
    constructor
    · intro hmem
      obtain ⟨e, hee, heq⟩ := List.mem_map.mp hmem
      obtain ⟨key, p, l⟩ := e
      obtain ⟨hk, hv⟩ := Prod.mk.injEq .. |>.mp heq
      subst hk
      have hin : inRange lo hi key = true := (List.mem_filter.mp hee).2
      have hmem2 : (key, (p, l)) ∈ s.keydir := (List.mem_filter.mp hee).1
      have hget : kdGet s.keydir key = some (p, l) := kdGet_of_mem hsort hmem2
      cases hlw : lastWrite ops key with
      | none =>
        rw [(hmain key).2 hlw] at hget
        exact Option.noConfusion hget
      | some w =>
        obtain ⟨p', hg, hr⟩ := (hmain key).1 w hlw
        rw [hget] at hg
        have hpl : (p, l) = (p', w.length) := by simpa using hg
        obtain ⟨hp', hl'⟩ := Prod.mk.injEq .. |>.mp hpl
        subst hp'
        subst hl'
        refine ⟨?_, hin⟩
        rw [← hv, hr]
        rfl
    · rintro ⟨hlw, hin⟩
      obtain ⟨p, hg, hr⟩ := (hmain k).1 v hlw
      have hmem2 : (k, (p, v.length)) ∈ s.keydir := kdGet_mem hg
      have hef : (k, (p, v.length)) ∈ s.scanEntries lo hi :=
        List.mem_filter.mpr ⟨hmem2, hin⟩
      refine List.mem_map.mpr ⟨(k, (p, v.length)), hef, ?_⟩
      show (k, (Log.read_entry s.log p v.length).getD []) = (k, v)
      rw [hr]
      rfl
  · show collectValues s.log (s.scanEntries lo hi).reverse = _
    rw [hcvrev, List.map_reverse]
    rfl

/-- C6: after any bounded history on a freshly opened engine, the forward
scan of any range succeeds, yields keys in strictly ascending
lexicographic byte order, contains exactly the pairs `(k, v)` such that
the last operation on `k` was `set k v` (no subsequent delete) and `k`
lies in the range; reverse iteration yields exactly the reversed list. -/
theorem scan_sorted_complete (ops : List Op) (lo hi : RBound)
    (hb : ∀ o ∈ ops, Op.boundedB o = true) :
    ((BitCask.new []).applyOps ops).scanValues lo hi
        = .ok (scannedPairs ((BitCask.new []).applyOps ops) lo hi) ∧
    List.Pairwise (fun a b => keyLt a.1 b.1 = true)
        (scannedPairs ((BitCask.new []).applyOps ops) lo hi) ∧
    (∀ k v, (k, v) ∈ scannedPairs ((BitCask.new []).applyOps ops) lo hi ↔
      (lastWrite ops k = some v ∧ inRange lo hi k = true)) ∧
    ((BitCask.new []).applyOps ops).scanValuesRev lo hi
        = .ok (scannedPairs ((BitCask.new []).applyOps ops) lo hi).reverse :=
  scan_spec_of_tracks (tracksHistory_applyOps ops hb) lo hi

theorem scan_sorted_complete_witness :
    ((BitCask.new []).applyOps [Op.set [1] [2], Op.set [0] [7], Op.del [1]]).scanValues
        .unbounded .unbounded
      = .ok (scannedPairs ((BitCask.new []).applyOps
          [Op.set [1] [2], Op.set [0] [7], Op.del [1]]) .unbounded .unbounded) ∧
    List.Pairwise (fun a b => keyLt a.1 b.1 = true)
      (scannedPairs ((BitCask.new []).applyOps
        [Op.set [1] [2], Op.set [0] [7], Op.del [1]]) .unbounded .unbounded) ∧
    (∀ k v, (k, v) ∈ scannedPairs ((BitCask.new []).applyOps
        [Op.set [1] [2], Op.set [0] [7], Op.del [1]]) .unbounded .unbounded ↔
      (lastWrite [Op.set [1] [2], Op.set [0] [7], Op.del [1]] k = some v ∧
        inRange .unbounded .unbounded k = true)) ∧
    ((BitCask.new []).applyOps [Op.set [1] [2], Op.set [0] [7], Op.del [1]]).scanValuesRev
        .unbounded .unbounded
      = .ok (scannedPairs ((BitCask.new []).applyOps
          [Op.set [1] [2], Op.set [0] [7], Op.del [1]]) .unbounded .unbounded).reverse :=
  scan_sorted_complete [Op.set [1] [2], Op.set [0] [7], Op.del [1]]
    .unbounded .unbounded (by decide)

end Lndb
